import Mathlib

/-!
Verification development for the page-level render acceleration and cache
engine described by the repository's documentation (`docs/api/jsi-api.md`,
`docs/features/jsi-acceleration.md`) and its design specification.

The repository ships documentation only; the engine itself (CacheStore,
AccelerationGateway, PreloadScheduler, PerformanceSampler, capability probe)
is not present as executable code.  Every definition below is therefore
modelled from the specification's words, and each doc comment records which
spec operation it embeds.
-/

namespace PDFJSI

/-- Modelled from the spec: `PageKey` — composite of (DocumentHandle, page
index (0-based), quality tier); the cache and in-flight-request identity;
equality is structural.  Document handles and quality tiers are represented
by natural-number identifiers. -/
structure PageKey where
  doc : Nat
  page : Nat
  tier : Nat
deriving DecidableEq, Repr

/-- Modelled from the spec: artifact kind enum {image, text, metrics}. -/
inductive ArtifactKind
  | image
  | text
  | metrics
deriving DecidableEq, Repr

/-- Modelled from the spec: `CacheEntry` — PageKey plus artifact bytes, size
in bytes, last-access timestamp, creation timestamp, artifact kind. -/
structure CacheEntry where
  key : PageKey
  artifact : List Nat
  size : Nat
  lastAccess : Nat
  created : Nat
  kind : ArtifactKind
deriving DecidableEq, Repr

/-- Modelled from the spec: `CacheStore` with a configured byte budget and
the monotonic hit/miss counters exposed by `stats()`. -/
structure CacheStore where
  entries : List CacheEntry
  budget : Nat
  hitCount : Nat
  missCount : Nat
deriving DecidableEq, Repr

/-- Total size in bytes of a list of cache entries. -/
def totalBytesL (l : List CacheEntry) : Nat :=
  (l.map (fun e => e.size)).sum

/-- Modelled from the spec: `totalBytes` component of `stats()`. -/
def CacheStore.totalBytes (c : CacheStore) : Nat :=
  totalBytesL c.entries

/-- Modelled from the spec: the LRU eviction order — least recently used
first, ties broken by oldest creation timestamp. -/
def lruLE (e1 e2 : CacheEntry) : Prop :=
  e1.lastAccess < e2.lastAccess ∨
    (e1.lastAccess = e2.lastAccess ∧ e1.created ≤ e2.created)

instance : DecidableRel lruLE := fun a b => by
  unfold lruLE; infer_instance

instance : IsTotal CacheEntry lruLE := ⟨by
  intro a b
  unfold lruLE
  omega⟩

instance : IsTrans CacheEntry lruLE := ⟨by
  intro a b c
  unfold lruLE
  omega⟩

/-- Entries of `l` whose key differs from `k` (the replace step of `put`). -/
def removeKey (k : PageKey) (l : List CacheEntry) : List CacheEntry :=
  l.filter fun e => decide (e.key ≠ k)

/-- Modelled from the spec: the eviction loop of `put` — starting from the
entries in LRU order (least recently used first), evict from the front until
the new entry of size `need` fits within `budget`. -/
def evictUntilFits (budget need : Nat) : List CacheEntry → List CacheEntry
  | [] => []
  | e :: rest =>
    if totalBytesL (e :: rest) + need ≤ budget then e :: rest
    else evictUntilFits budget need rest

/-- The entries surviving the eviction step when `a` is inserted under key
`k`: the old entries minus any entry for `k`, sorted least-recently-used
first (ties by oldest creation timestamp), with the front evicted until the
new artifact fits. -/
def CacheStore.kept (c : CacheStore) (k : PageKey) (a : List Nat) : List CacheEntry :=
  evictUntilFits c.budget a.length (List.insertionSort lruLE (removeKey k c.entries))

/-- Outcome signalled by `put`. -/
inductive PutOutcome
  | stored
  | capacityExceeded
deriving DecidableEq, Repr

/-- Modelled from the spec: `put(key, entry)` — inserts or replaces; if the
total size would exceed the configured budget, evicts least-recently-used
entries (ties broken by oldest creation timestamp) until the new entry fits;
an entry larger than the entire budget is rejected (signals
`CapacityExceeded`) and not stored, but still returned to the caller (the
returned artifact bytes are the second component). -/
def CacheStore.put (c : CacheStore) (k : PageKey) (a : List Nat)
    (kd : ArtifactKind) (now : Nat) : PutOutcome × List Nat × CacheStore :=
  if c.budget < a.length then (.capacityExceeded, a, c)
  else (.stored, a,
    { c with entries := c.kept k a ++ [⟨k, a, a.length, now, now, kd⟩] })

/-- Modelled from the spec: `get(key)` — no side effects besides updating
the last-access timestamp on hit (for LRU ordering) and the hit/miss
counters. -/
def CacheStore.get (c : CacheStore) (k : PageKey) (now : Nat) :
    Option CacheEntry × CacheStore :=
  match c.entries.find? (fun e => decide (e.key = k)) with
  | some e =>
    (some e,
     { c with
        entries := c.entries.map fun x =>
          if x.key = k then { x with lastAccess := now } else x,
        hitCount := c.hitCount + 1 })
  | none => (none, { c with missCount := c.missCount + 1 })

/-- Modelled from the spec: the read-only snapshot returned by `stats()`. -/
structure CacheStats where
  entryCount : Nat
  totalBytes : Nat
  hitCount : Nat
  missCount : Nat
deriving DecidableEq, Repr

/-- Modelled from the spec: `stats() -> {entryCount, totalBytes, hitCount,
missCount}`. -/
def CacheStore.stats (c : CacheStore) : CacheStats :=
  ⟨c.entries.length, c.totalBytes, c.hitCount, c.missCount⟩

/-- Modelled from the spec: invalidation scope — one of single key, whole
document, artifact kind, everything. -/
inductive Scope
  | single (k : PageKey)
  | wholeDoc (d : Nat)
  | ofKind (ak : ArtifactKind)
  | everything
deriving DecidableEq, Repr

/-- Modelled from the spec: `invalidate(scope)` — removes matching entries
immediately; this operation has no failure mode (it is a total function);
the monotonic hit/miss counters are reset only by the `everything` scope. -/
def CacheStore.invalidate (c : CacheStore) (s : Scope) : CacheStore :=
  match s with
  | .everything => { c with entries := [], hitCount := 0, missCount := 0 }
  | .single k => { c with entries := c.entries.filter fun e => decide (e.key ≠ k) }
  | .wholeDoc d => { c with entries := c.entries.filter fun e => decide (e.key.doc ≠ d) }
  | .ofKind ak => { c with entries := c.entries.filter fun e => decide (e.kind ≠ ak) }

/-- The empty cache store with a configured budget. -/
def emptyStore (budget : Nat) : CacheStore := ⟨[], budget, 0, 0⟩

/-- Modelled from the spec: which execution path served a request —
`pathUsed` is `cache` on a cache hit, otherwise the fast (direct JSI) path
or the asynchronous fallback (bridge) path. -/
inductive PathUsed
  | cache
  | fast
  | fallback
deriving DecidableEq, Repr

/-- Modelled from the spec: `PerformanceSample` outcome enum
{hit, miss, fallback, error}. -/
inductive SampleOutcome
  | hit
  | miss
  | fallback
  | error
deriving DecidableEq, Repr

/-- Modelled from the spec: `PerformanceSample` — {operation kind, duration,
outcome, path used, timestamp}. -/
structure PerformanceSample where
  operation : Nat
  durationMs : ℚ
  outcome : SampleOutcome
  path : PathUsed
  timestamp : Nat
deriving DecidableEq, Repr

/-- Modelled from the spec: `PerformanceSampler` — a fixed-capacity ring
buffer of samples; the buffer holds the samples oldest first. -/
structure Sampler where
  capacity : Nat
  buffer : List PerformanceSample
deriving DecidableEq, Repr

/-- A fresh sampler with a configured capacity. -/
def Sampler.init (cap : Nat) : Sampler := ⟨cap, []⟩

/-- Modelled from the spec: `record(sample)` — appends to the fixed-capacity
ring buffer; the oldest sample is overwritten when full. -/
def Sampler.record (s : Sampler) (x : PerformanceSample) : Sampler :=
  if s.buffer.length + 1 ≤ s.capacity then ⟨s.capacity, s.buffer ++ [x]⟩
  else ⟨s.capacity, s.buffer.tail ++ [x]⟩

/-- Record a whole sequence of samples in order. -/
def Sampler.recordAll (s : Sampler) (xs : List PerformanceSample) : Sampler :=
  xs.foldl Sampler.record s

/-- Modelled from the spec: the aggregate returned by `aggregate()`. -/
structure Aggregate where
  count : Nat
  avgDurationMs : ℚ
  hitRate : ℚ
  fastPathRate : ℚ
deriving DecidableEq, Repr

/-- The aggregate computed from a plain list of samples. -/
def aggregateOf (l : List PerformanceSample) : Aggregate :=
  if l.length = 0 then ⟨0, 0, 0, 0⟩
  else
    ⟨l.length,
     (l.map (fun x => x.durationMs)).sum / (l.length : ℚ),
     ((l.countP fun x => decide (x.outcome = .hit)) : ℚ) / (l.length : ℚ),
     ((l.countP fun x => decide (x.path = .fast)) : ℚ) / (l.length : ℚ)⟩

/-- Modelled from the spec: `aggregate() -> {count, avgDurationMs, hitRate,
fastPathRate}` — computed over the current buffer contents only. -/
def Sampler.aggregate (s : Sampler) : Aggregate :=
  aggregateOf s.buffer

/-- Modelled from the spec: the opaque native rendering backend seen through
the two invocation routes — `fastAvailable` is the capability-probe result,
and each route either produces artifact bytes or fails
(`NativePathFailure`, represented by `none`). -/
structure Backend where
  fastAvailable : Bool
  fastExec : PageKey → Option (List Nat)
  fallbackExec : PageKey → Option (List Nat)

/-- The path chosen by `SELECT_PATH` in the spec's execution-path state
machine: the fast path when available, otherwise the fallback path. -/
def selectedPath (b : Backend) : PathUsed :=
  if b.fastAvailable then .fast else .fallback

/-- The selected execution path fails on key `k`. -/
def selectedPathFails (b : Backend) (k : PageKey) : Prop :=
  (if b.fastAvailable then b.fastExec k else b.fallbackExec k) = none

instance (b : Backend) (k : PageKey) : Decidable (selectedPathFails b k) := by
  unfold selectedPathFails; infer_instance

/-- Result of running the execution-path state machine: the produced
artifact together with the path that produced it (or `none` when every
attempted path failed), and the ordered list of execution attempts made. -/
structure ExecOutcome where
  result : Option (List Nat × PathUsed)
  attempts : List PathUsed
deriving DecidableEq, Repr

/-- Modelled from the spec: the execution-path state machine of
`renderPage` after a cache and dedup miss — `SELECT_PATH` goes to
`EXEC_FAST` when the fast path is available and to `EXEC_FALLBACK`
otherwise; a fast-path failure triggers exactly one retry via the fallback
path; a fallback failure returns the error with no further retries. -/
def executeWithFallback (b : Backend) (k : PageKey) : ExecOutcome :=
  if b.fastAvailable then
    match b.fastExec k with
    | some a => ⟨some (a, .fast), [.fast]⟩
    | none =>
      match b.fallbackExec k with
      | some a => ⟨some (a, .fallback), [.fast, .fallback]⟩
      | none => ⟨none, [.fast, .fallback]⟩
  else
    match b.fallbackExec k with
    | some a => ⟨some (a, .fallback), [.fallback]⟩
    | none => ⟨none, [.fallback]⟩

/-- Typed failures surfaced to the caller by the gateway. -/
inductive GatewayError
  | nativePathFailure
  | notFound
deriving DecidableEq, Repr

/-- Modelled from the spec: `RenderResult{artifact, pathUsed}` (durations
are not modelled; real time is out of scope). -/
structure RenderResult where
  artifact : List Nat
  pathUsed : PathUsed
deriving DecidableEq, Repr

/-- The mutable state owned by the AccelerationGateway: the cache store, the
performance sampler, and a logical clock supplying timestamps. -/
structure GatewayState where
  cache : CacheStore
  sampler : Sampler
  clock : Nat
deriving DecidableEq, Repr

/-- Modelled from the spec: `renderPage(key, sourceBytes)` — checks
CacheStore first and returns immediately with `pathUsed = cache` on a hit;
on a miss runs the execution-path state machine, stores the artifact to
CacheStore on success (a `CapacityExceeded` rejection is absorbed: the
artifact is still returned), records a PerformanceSample, and returns; if
both paths fail the `NativePathFailure` error is surfaced.  (In-flight
deduplication across concurrent callers is modelled separately by the
`Dedup` transition system.) -/
def renderPage (b : Backend) (k : PageKey) (s : GatewayState) :
    Except GatewayError RenderResult × GatewayState :=
  match (s.cache.get k s.clock).1 with
  | some e =>
    (.ok ⟨e.artifact, .cache⟩,
     { cache := (s.cache.get k s.clock).2,
       sampler := s.sampler.record ⟨0, 0, .hit, .cache, s.clock⟩,
       clock := s.clock + 1 })
  | none =>
    match (executeWithFallback b k).result with
    | some ap =>
      (.ok ⟨ap.1, ap.2⟩,
       { cache := ((s.cache.get k s.clock).2.put k ap.1 .image s.clock).2.2,
         sampler := s.sampler.record ⟨0, 0, .miss, ap.2, s.clock⟩,
         clock := s.clock + 1 })
    | none =>
      (.error .nativePathFailure,
       { cache := (s.cache.get k s.clock).2,
         sampler := s.sampler.record ⟨0, 0, .error, selectedPath b, s.clock⟩,
         clock := s.clock + 1 })

/-- Modelled from the spec: the per-process capability-probe state — the
cached probe result, plus a count of how many probes have actually been
performed. -/
structure ProcState where
  probeResult : Option Bool
  probeCount : Nat
deriving DecidableEq, Repr

/-- The process state at startup: no probe performed yet. -/
def initProc : ProcState := ⟨none, 0⟩

/-- Modelled from the spec: `availability() -> {fastPathAvailable}` — probes
once per process lifetime whether the fast path can be used; the result is
cached for the process lifetime since environment capability (`env`) does
not change at runtime. -/
def availability (env : Bool) (s : ProcState) : Bool × ProcState :=
  match s.probeResult with
  | some b => (b, s)
  | none => (env, ⟨some env, s.probeCount + 1⟩)

/-- The process state after `n` calls to `availability`. -/
def procAfter (env : Bool) : Nat → ProcState
  | 0 => initProc
  | n + 1 => (availability env (procAfter env n)).2

/-- The `fastPathAvailable` value returned by the `(n+1)`-th call to
`availability` in a process. -/
def callResult (env : Bool) (n : Nat) : Bool :=
  (availability env (procAfter env n)).1

/-- Modelled from the spec: the preload window around the current page,
`[max(0, newCenterPage - radius), min(totalPages-1, newCenterPage + radius)]`
(natural-number subtraction already clamps the lower bound at 0). -/
def windowLo (center radius : Nat) : Nat := center - radius

/-- Upper end of the preload window. -/
def windowHi (center radius total : Nat) : Nat := min (total - 1) (center + radius)

/-- The pages inside the preload window. -/
def windowPages (center radius total : Nat) : List Nat :=
  (List.range total).filter fun p =>
    decide (windowLo center radius ≤ p) && decide (p ≤ windowHi center radius total)

/-- Modelled from the spec: the set of pages for which
`onPageChanged(document, newCenterPage, radius, totalPages)` issues
`renderPage`/`getMetrics` requests — every page in the window not already
cached (`cached` is the already-cached predicate). -/
def onPageChangedRequests (cached : Nat → Bool) (center radius total : Nat) :
    List Nat :=
  (windowPages center radius total).filter fun p => !cached p

/-- Modelled from the spec: the snapshot returned by
`getCacheMetrics(pdfId)` — cached page count, total cache size in bytes,
hit and miss percentages in [0, 100], and the total number of cache
requests. -/
structure CacheMetricsSnapshot where
  cachedPages : Nat
  cacheSize : Nat
  hitRate : ℚ
  missRate : ℚ
  totalRequests : Nat
deriving DecidableEq, Repr

/-- Modelled from the spec: `getCacheMetrics` — computes the hit/miss
percentages from the store's monotonic hit/miss counters. -/
def getCacheMetrics (c : CacheStore) : CacheMetricsSnapshot :=
  let total := c.hitCount + c.missCount
  { cachedPages := c.entries.length,
    cacheSize := c.totalBytes,
    hitRate := if total = 0 then 0 else 100 * (c.hitCount : ℚ) / (total : ℚ),
    missRate := if total = 0 then 0 else 100 * (c.missCount : ℚ) / (total : ℚ),
    totalRequests := total }

/-- Page geometry of the opaque native renderer.  Modelled from the spec:
a PDF page's width and height in points are strictly positive physical
dimensions. -/
structure PageDims where
  width : ℚ
  height : ℚ
  width_pos : 0 < width
  height_pos : 0 < height

/-- Modelled from the spec: `DocumentHandle` — opaque identifier with a page
count and per-page geometry supplied by the native renderer. -/
structure DocumentHandle where
  id : Nat
  pageCount : Nat
  dims : Nat → PageDims

/-- Modelled from the spec: the metrics contract
`getPageMetrics -> {width, height, aspectRatio}` where the documentation
defines the third field as the width / height ratio. -/
structure PageMetrics where
  width : ℚ
  height : ℚ
  aspect : ℚ

/-- Modelled from the spec: `getPageMetrics(documentId, pageIndex)` —
returns the page's width, height and width/height ratio, or the `NotFound`
error when the page index is out of range for the document. -/
def getPageMetrics (d : DocumentHandle) (page : Nat) :
    Except GatewayError PageMetrics :=
  if page < d.pageCount then
    .ok ⟨(d.dims page).width, (d.dims page).height,
         (d.dims page).width / (d.dims page).height⟩
  else .error .notFound

/-- Phase of one caller in the deduplication protocol: not yet arrived,
attached to the pending in-flight request, or finished with an artifact. -/
inductive CallerPhase
  | idle
  | attached
  | done (artifact : List Nat)
deriving DecidableEq, Repr

/-- Modelled from the spec: the per-PageKey state shared by `n` concurrent
`renderPage` callers — the cache slot for the key, the InFlightRequest
table entry (the list of in-flight native execution ids for the key, kept
as a list so that the at-most-one invariant is a proved property rather
than a typing artifact), each caller's phase, and the number of native
executions started so far. -/
structure DedupState (n : Nat) where
  cache : Option (List Nat)
  inflight : List Nat
  callers : Fin n → CallerPhase
  executions : Nat

/-- Atomic events of the deduplication protocol: a caller arrives (performs
the synchronized cache check / in-flight check / execution start of
`renderPage`), or the pending native execution completes. -/
inductive DedupAction (n : Nat)
  | arrive (i : Fin n)
  | complete

/-- Modelled from the spec: one atomic step of the deduplication protocol.
An arriving caller returns immediately on a cache hit; otherwise it attaches
to an existing in-flight request for the key if one is pending, and only
when none is pending does it issue a new native execution.  A completion
stores the artifact of the in-flight execution in the cache and hands it to
every attached caller.  `execResult e` is the artifact produced by native
execution number `e`.  Actions whose precondition does not hold leave the
state unchanged. -/
def dedupStep (execResult : Nat → List Nat) {n : Nat} (s : DedupState n) :
    DedupAction n → DedupState n
  | .arrive i =>
    match s.callers i with
    | .idle =>
      match s.cache with
      | some a => { s with callers := Function.update s.callers i (.done a) }
      | none =>
        if s.inflight.isEmpty then
          { s with
              inflight := [s.executions],
              executions := s.executions + 1,
              callers := Function.update s.callers i .attached }
        else
          { s with callers := Function.update s.callers i .attached }
    | _ => s
  | .complete =>
    match s.inflight with
    | [] => s
    | e :: rest =>
      { s with
          cache := some (execResult e),
          inflight := rest,
          callers := fun j =>
            match s.callers j with
            | .attached => .done (execResult e)
            | ph => ph }

/-- The initial state: nothing cached for the key, no in-flight request, no
caller arrived, no execution issued. -/
def dedupInit (n : Nat) : DedupState n :=
  ⟨none, [], fun _ => .idle, 0⟩

/-- Run a sequence of protocol actions from a state. -/
def dedupRun (execResult : Nat → List Nat) {n : Nat} (s : DedupState n)
    (acts : List (DedupAction n)) : DedupState n :=
  acts.foldl (dedupStep execResult) s

/-- The inductive invariant of the deduplication protocol. -/
def DedupInv (execResult : Nat → List Nat) {n : Nat} (s : DedupState n) : Prop :=
  s.inflight.length ≤ 1 ∧
  s.executions ≤ 1 ∧
  (s.executions = 0 → s.cache = none ∧ s.inflight = [] ∧ ∀ i, s.callers i = .idle) ∧
  (∀ a, s.cache = some a → a = execResult 0 ∧ s.executions = 1) ∧
  (∀ e rest, s.inflight = e :: rest →
     e = 0 ∧ rest = [] ∧ s.cache = none ∧ s.executions = 1) ∧
  (∀ i a, s.callers i = .done a → a = execResult 0) ∧
  (∀ i, s.callers i = .attached → s.inflight ≠ []) ∧
  (s.executions = 1 → s.cache = some (execResult 0) ∨ s.inflight = [0])

/-- Apply one `put` operation, given as (key, artifact bytes, kind,
timestamp), to a store. -/
def applyPut (c : CacheStore) (op : PageKey × List Nat × ArtifactKind × Nat) :
    CacheStore :=
  (c.put op.1 op.2.1 op.2.2.1 op.2.2.2).2.2

/-- Run a sequence of put operations against an initially empty store with
the given budget. -/
def runPuts (budget : Nat) (ops : List (PageKey × List Nat × ArtifactKind × Nat)) :
    CacheStore :=
  ops.foldl applyPut (emptyStore budget)

/-- A concrete one-page document (US-letter geometry) used as a witness
input. -/
def docW : DocumentHandle := ⟨1, 1, fun _ => ⟨612, 792, by norm_num, by norm_num⟩⟩

/-- The concrete metrics record for page 0 of `docW`. -/
def mW : PageMetrics := ⟨612, 792, 612 / 792⟩

/-- A concrete backend whose fast path always succeeds, used as a witness
input. -/
def bW1 : Backend := ⟨true, fun _ => some [5], fun _ => none⟩

/-- A concrete initial gateway state with a 10-byte cache budget. -/
def sW1 : GatewayState := ⟨emptyStore 10, Sampler.init 4, 0⟩

/-- A concrete backend whose fast path always succeeds, paired below with a
zero-budget store. -/
def bCexC1 : Backend := ⟨true, fun _ => some [1], fun _ => none⟩

/-- A concrete initial gateway state whose cache budget is zero, so every
artifact is oversized. -/
def sCexC1 : GatewayState := ⟨emptyStore 0, Sampler.init 4, 0⟩

/-- A concrete backend with the fast path unavailable and a failing
fallback path. -/
def bCex4 : Backend := ⟨false, fun _ => none, fun _ => none⟩

/-- A concrete backend with an available but failing fast path and a
succeeding fallback path. -/
def bW4 : Backend := ⟨true, fun _ => none, fun _ => some [9]⟩

/-- A concrete performance sample carrying timestamp `t`. -/
def sampleW (t : Nat) : PerformanceSample := ⟨0, 0, .hit, .fast, t⟩

/-- A concrete store snapshot with 3 hits and 1 miss recorded. -/
def cW10 : CacheStore := ⟨[], 10, 3, 1⟩

/-- A concrete store snapshot with nonzero hit/miss counters. -/
def cW6 : CacheStore := ⟨[], 10, 5, 2⟩

/-- C5: for `onPageChanged(document, newCenterPage, radius, totalPages)`
with `newCenterPage < totalPages`, the pages requested are exactly the
window `[max(0, newCenterPage - radius), min(totalPages-1, newCenterPage +
radius)]` minus already-cached pages, and no page outside that window is
requested. -/
theorem onPageChanged_window_correct (cached : Nat → Bool)
    (center radius total : Nat) (h : center < total) (p : Nat) :
    p ∈ onPageChangedRequests cached center radius total ↔
      (max 0 ((center : ℤ) - (radius : ℤ)) ≤ (p : ℤ) ∧
       (p : ℤ) ≤ min ((total : ℤ) - 1) ((center : ℤ) + (radius : ℤ)) ∧
       cached p = false) := by
  unfold onPageChangedRequests windowPages windowLo windowHi
  simp only [List.mem_filter, List.mem_range, Bool.and_eq_true, decide_eq_true_eq,
    Bool.not_eq_true']
  constructor
  · rintro ⟨⟨hr, hlo, hhi⟩, hc⟩
    refine ⟨?_, ?_, hc⟩ <;> omega
  · rintro ⟨hlo, hhi, hc⟩
    refine ⟨⟨?_, ?_, ?_⟩, hc⟩ <;> omega

/-- Witness for C5: `onPageChanged(doc, 50, radius=3, totalPages=100)` with
an empty cache requests page 47, and the full request list is exactly pages
47 through 53 (so neither 46 nor 54 is requested). -/
theorem onPageChanged_window_correct_witness :
    47 ∈ onPageChangedRequests (fun _ => false) 50 3 100 ∧
    onPageChangedRequests (fun _ => false) 50 3 100 = [47, 48, 49, 50, 51, 52, 53] := by
  refine ⟨(onPageChanged_window_correct (fun _ => false) 50 3 100 (by omega) 47).mpr
    ⟨by decide, by decide, rfl⟩, by decide⟩

/-- C6: `invalidate(everything)` is idempotent — a second call yields the
same state as one call, with all stats (entryCount, totalBytes, hitCount,
missCount) zero both times; `invalidate` is a total function for every
scope (it has no failure mode by construction); and the monotonic hit/miss
counters are reset only by the `everything` scope — every other scope
preserves them. -/
theorem invalidate_idempotent_total (c : CacheStore) :
    (c.invalidate .everything).invalidate .everything = c.invalidate .everything ∧
    (c.invalidate .everything).stats = ⟨0, 0, 0, 0⟩ ∧
    ((c.invalidate .everything).invalidate .everything).stats = ⟨0, 0, 0, 0⟩ ∧
    (∀ sc : Scope, sc ≠ .everything →
       (c.invalidate sc).hitCount = c.hitCount ∧
       (c.invalidate sc).missCount = c.missCount) ∧
    (∀ sc : Scope, (c.invalidate sc).budget = c.budget) := by
  refine ⟨rfl, rfl, rfl, ?_, ?_⟩
  · intro sc hsc
    cases sc with
    | everything => exact absurd rfl hsc
    | single k => exact ⟨rfl, rfl⟩
    | wholeDoc d => exact ⟨rfl, rfl⟩
    | ofKind ak => exact ⟨rfl, rfl⟩
  · intro sc
    cases sc <;> rfl

/-- Witness for C6: on a concrete store with nonzero counters, a
single-key invalidation preserves the hit counter (value 5). -/
theorem invalidate_idempotent_total_witness :
    (cW6.invalidate (Scope.single ⟨0, 0, 0⟩)).hitCount = 5 :=
  ((invalidate_idempotent_total cW6).2.2.2.1 (Scope.single ⟨0, 0, 0⟩) (by decide)).1

/-- After at least one call, the capability-probe state is fixed: the probe
result is cached and exactly one probe has been performed. -/
theorem procAfter_succ (env : Bool) (n : Nat) :
    procAfter env (n + 1) = ⟨some env, 1⟩ := by
  induction n with
  | zero => rfl
  | succ k ih =>
    show (availability env (procAfter env (k + 1))).2 = _
    rw [ih]
    rfl

/-- Every call to `availability` returns the environment capability. -/
theorem callResult_eq (env : Bool) (n : Nat) : callResult env n = env := by
  cases n with
  | zero => rfl
  | succ k =>
    show (availability env (procAfter env (k + 1))).1 = env
    rw [procAfter_succ]
    rfl

/-- C7: the fast-path capability probe is evaluated at most once per
process lifetime and its result never changes — any two `availability`
calls in the same process return the same `fastPathAvailable` value, and
after any number of calls at most one probe has been performed (so no call
after the first performs a new probe). -/
theorem availability_probe_once (env : Bool) (n m : Nat) :
    callResult env n = callResult env m ∧
    (procAfter env n).probeCount ≤ 1 := by
  refine ⟨(callResult_eq env n).trans (callResult_eq env m).symm, ?_⟩
  cases n with
  | zero => exact Nat.zero_le 1
  | succ k => rw [procAfter_succ]

/-- C9: whenever `getPageMetrics` succeeds, the returned metrics satisfy
`aspectRatio = width / height` with strictly positive width and height. -/
theorem getPageMetrics_aspect (d : DocumentHandle) (page : Nat)
    (m : PageMetrics) (h : getPageMetrics d page = .ok m) :
    m.aspect = m.width / m.height ∧ 0 < m.width ∧ 0 < m.height := by
  unfold getPageMetrics at h
  split at h
  · cases h
    exact ⟨rfl, (d.dims page).width_pos, (d.dims page).height_pos⟩
  · cases h

/-- Witness for C9: the metrics of page 0 of the concrete document `docW`
satisfy the aspect-ratio and positivity contract. -/
theorem getPageMetrics_aspect_witness :
    mW.aspect = mW.width / mW.height ∧ 0 < mW.width ∧ 0 < mW.height :=
  getPageMetrics_aspect docW 0 mW rfl

/-- C10: whenever `totalRequests > 0`, the `getCacheMetrics` snapshot has
`hitRate` and `missRate` each within [0, 100] with
`hitRate + missRate = 100`, and non-negative `cachedPages` and
`cacheSize`. -/
theorem getCacheMetrics_rates (c : CacheStore)
    (h : 0 < (getCacheMetrics c).totalRequests) :
    0 ≤ (getCacheMetrics c).hitRate ∧ (getCacheMetrics c).hitRate ≤ 100 ∧
    0 ≤ (getCacheMetrics c).missRate ∧ (getCacheMetrics c).missRate ≤ 100 ∧
    (getCacheMetrics c).hitRate + (getCacheMetrics c).missRate = 100 ∧
    0 ≤ (getCacheMetrics c).cachedPages ∧ 0 ≤ (getCacheMetrics c).cacheSize := by
  have ht : c.hitCount + c.missCount ≠ 0 := by
    intro h0
    rw [show (getCacheMetrics c).totalRequests = c.hitCount + c.missCount from rfl, h0] at h
    omega
  have htQ : (0 : ℚ) < ((c.hitCount + c.missCount : Nat) : ℚ) := by
    exact_mod_cast Nat.pos_of_ne_zero ht
  have hhit : (getCacheMetrics c).hitRate
      = 100 * (c.hitCount : ℚ) / ((c.hitCount + c.missCount : Nat) : ℚ) := by
    show (if c.hitCount + c.missCount = 0 then (0 : ℚ) else _) = _
    rw [if_neg ht]
  have hmiss : (getCacheMetrics c).missRate
      = 100 * (c.missCount : ℚ) / ((c.hitCount + c.missCount : Nat) : ℚ) := by
    show (if c.hitCount + c.missCount = 0 then (0 : ℚ) else _) = _
    rw [if_neg ht]
  refine ⟨?_, ?_, ?_, ?_, ?_, Nat.zero_le _, Nat.zero_le _⟩
  · rw [hhit]; positivity
  · rw [hhit, div_le_iff₀ htQ]
    have : (c.hitCount : ℚ) ≤ ((c.hitCount + c.missCount : Nat) : ℚ) := by
      exact_mod_cast Nat.le_add_right _ _
    nlinarith
  · rw [hmiss]; positivity
  · rw [hmiss, div_le_iff₀ htQ]
    have : (c.missCount : ℚ) ≤ ((c.hitCount + c.missCount : Nat) : ℚ) := by
      exact_mod_cast Nat.le_add_left _ _
    nlinarith
  · rw [hhit, hmiss, div_add_div_same, div_eq_iff (ne_of_gt htQ)]
    push_cast
    ring

/-- Witness for C10: the snapshot of a concrete store with 3 hits and 1
miss satisfies the rate bounds and the 100-percent identity. -/
theorem getCacheMetrics_rates_witness :
    0 ≤ (getCacheMetrics cW10).hitRate ∧ (getCacheMetrics cW10).hitRate ≤ 100 ∧
    0 ≤ (getCacheMetrics cW10).missRate ∧ (getCacheMetrics cW10).missRate ≤ 100 ∧
    (getCacheMetrics cW10).hitRate + (getCacheMetrics cW10).missRate = 100 ∧
    0 ≤ (getCacheMetrics cW10).cachedPages ∧ 0 ≤ (getCacheMetrics cW10).cacheSize :=
  getCacheMetrics_rates cW10 (by decide)

/-- Counterexample for C4: in the spec's execution-path state machine, when
the fast path is unavailable the fallback path is the selected path, and
its failure is returned directly — no retry via the other path is made.  So
the claim "if the selected execution path fails, exactly one retry via the
other path is made" is false at this concrete input: the selected path
fails, yet only one attempt (no retry) occurs. -/
theorem fallback_retry_counterexample :
    selectedPathFails bCex4 ⟨0, 0, 0⟩ ∧
    (executeWithFallback bCex4 ⟨0, 0, 0⟩).attempts = [PathUsed.fallback] ∧
    (executeWithFallback bCex4 ⟨0, 0, 0⟩).result = none ∧
    ¬ (∀ (b : Backend) (k : PageKey), selectedPathFails b k →
        (executeWithFallback b k).attempts.length = 2) := by
  refine ⟨rfl, rfl, rfl, ?_⟩
  intro hclaim
  have h := hclaim bCex4 ⟨0, 0, 0⟩ rfl
  exact absurd h (by decide)

/-- C4 (amended): after a cache and dedup miss, at most two execution
attempts are made; when the fast path is selected (i.e. available) and
fails, exactly one retry via the fallback path is made — the caller
receives the fallback's artifact if it succeeds and the error if it also
fails, with no further retries; when the fallback path is the selected path
(fast unavailable) and fails, the error is surfaced with no retry. -/
theorem fallback_single_retry (b : Backend) (k : PageKey)
    (hsel : selectedPathFails b k) :
    (executeWithFallback b k).attempts.length ≤ 2 ∧
    (b.fastAvailable = true →
       (executeWithFallback b k).attempts = [PathUsed.fast, PathUsed.fallback] ∧
       (executeWithFallback b k).result =
         Option.map (fun a => (a, PathUsed.fallback)) (b.fallbackExec k)) ∧
    (b.fastAvailable = false →
       (executeWithFallback b k).attempts = [PathUsed.fallback] ∧
       (executeWithFallback b k).result = none) := by
  unfold selectedPathFails at hsel
  cases hfa : b.fastAvailable with
  | true =>
    rw [hfa, if_pos rfl] at hsel
    have he : executeWithFallback b k =
        match b.fallbackExec k with
        | some a => ⟨some (a, .fallback), [.fast, .fallback]⟩
        | none => ⟨none, [.fast, .fallback]⟩ := by
      unfold executeWithFallback
      rw [hfa, if_pos rfl, hsel]
    cases hfb : b.fallbackExec k with
    | some a =>
      rw [hfb] at he
      rw [he]
      exact ⟨Nat.le.refl, fun _ => ⟨rfl, rfl⟩, fun hf => Bool.noConfusion hf⟩
    | none =>
      rw [hfb] at he
      rw [he]
      exact ⟨Nat.le.refl, fun _ => ⟨rfl, rfl⟩, fun hf => Bool.noConfusion hf⟩
  | false =>
    rw [hfa, if_neg (by decide)] at hsel
    have he : executeWithFallback b k = ⟨none, [.fallback]⟩ := by
      unfold executeWithFallback
      rw [hfa, if_neg (by decide), hsel]
    rw [he]
    exact ⟨Nat.le_succ 1, fun ht => Bool.noConfusion ht, fun _ => ⟨rfl, rfl⟩⟩

/-- Witness for C4: on a concrete backend whose fast path fails and whose
fallback succeeds with artifact `[9]`, exactly the two attempts
`[fast, fallback]` are made and the caller receives the fallback result. -/
theorem fallback_single_retry_witness :
    (executeWithFallback bW4 ⟨0, 0, 0⟩).attempts = [PathUsed.fast, PathUsed.fallback] ∧
    (executeWithFallback bW4 ⟨0, 0, 0⟩).result = some ([9], PathUsed.fallback) := by
  have h := fallback_single_retry bW4 ⟨0, 0, 0⟩ rfl
  exact ⟨(h.2.1 rfl).1, ((h.2.1 rfl).2).trans rfl⟩

/-- `record` never changes the configured capacity. -/
theorem record_capacity (s : Sampler) (x : PerformanceSample) :
    (s.record x).capacity = s.capacity := by
  unfold Sampler.record
  split <;> rfl

/-- `recordAll` never changes the configured capacity. -/
theorem recordAll_capacity (s : Sampler) (xs : List PerformanceSample) :
    (s.recordAll xs).capacity = s.capacity := by
  induction xs generalizing s with
  | nil => rfl
  | cons x rest ih =>
    show ((s.record x).recordAll rest).capacity = s.capacity
    rw [ih, record_capacity]

/-- After recording any sequence of samples into a fresh sampler of positive
capacity `cap`, the buffer holds exactly the most recent `min cap length`
samples, oldest first. -/
theorem recordAll_buffer (cap : Nat) (hcap : 0 < cap)
    (xs : List PerformanceSample) :
    ((Sampler.init cap).recordAll xs).buffer = xs.drop (xs.length - cap) := by
  induction xs using List.reverseRecOn with
  | nil => rw [List.drop_nil]; rfl
  | append_singleton ys x ih =>
    have hcapS : ((Sampler.init cap).recordAll ys).capacity = cap :=
      recordAll_capacity _ _
    have hrec : (Sampler.init cap).recordAll (ys ++ [x])
        = ((Sampler.init cap).recordAll ys).record x := by
      unfold Sampler.recordAll
      exact List.foldl_append _ _ _ _
    rw [hrec]
    unfold Sampler.record
    rw [hcapS, ih]
    by_cases hle : ys.length + 1 ≤ cap
    · have h0 : ys.length - cap = 0 := by omega
      rw [h0, List.drop_zero, if_pos (by omega)]
      have h1 : (ys ++ [x]).length - cap = 0 := by
        rw [List.length_append]
        simp only [List.length_singleton]
        omega
      rw [h1, List.drop_zero]
    · have hge : cap ≤ ys.length := by omega
      have hlen : (ys.drop (ys.length - cap)).length = cap := by
        rw [List.length_drop]
        omega
      rw [if_neg (by rw [hlen]; omega), List.tail_drop]
      have hidx : (ys ++ [x]).length - cap = ys.length + 1 - cap := by
        rw [List.length_append]
        simp only [List.length_singleton]
      rw [hidx, List.drop_append_of_le_length (by omega)]
      have : ys.length - cap + 1 = ys.length + 1 - cap := by omega
      rw [this]

/-- C8: the PerformanceSampler buffer is bounded — for every sequence of
`record` calls into a fresh sampler of positive configured capacity, the
buffer never holds more than `capacity` samples; once capacity is reached
each `record` overwrites the oldest sample, so the buffer holds exactly the
most recent `capacity` samples (the suffix of the recorded sequence); and
`aggregate` is computed over the current buffer contents only. -/
theorem sampler_ring_buffer_bounded (cap : Nat) (hcap : 0 < cap)
    (xs : List PerformanceSample) :
    ((Sampler.init cap).recordAll xs).buffer = xs.drop (xs.length - cap) ∧
    ((Sampler.init cap).recordAll xs).buffer.length ≤ cap ∧
    ((Sampler.init cap).recordAll xs).aggregate
      = aggregateOf (xs.drop (xs.length - cap)) := by
  have h := recordAll_buffer cap hcap xs
  refine ⟨h, ?_, ?_⟩
  · rw [h, List.length_drop]
    omega
  · unfold Sampler.aggregate
    rw [h]

/-- Witness for C8: recording three samples into a capacity-2 sampler
leaves exactly the two most recent samples in the buffer, whose aggregate
count is 2. -/
theorem sampler_ring_buffer_bounded_witness :
    ((Sampler.init 2).recordAll [sampleW 1, sampleW 2, sampleW 3]).buffer
      = [sampleW 2, sampleW 3] ∧
    ((Sampler.init 2).recordAll [sampleW 1, sampleW 2, sampleW 3]).aggregate.count = 2 := by
  have h := sampler_ring_buffer_bounded 2 (by omega) [sampleW 1, sampleW 2, sampleW 3]
  exact ⟨h.1.trans rfl, by rw [h.2.2]; rfl⟩

/-- `totalBytesL` is additive over append. -/
theorem totalBytesL_append (l1 l2 : List CacheEntry) :
    totalBytesL (l1 ++ l2) = totalBytesL l1 + totalBytesL l2 := by
  unfold totalBytesL
  rw [List.map_append, List.sum_append]

/-- The eviction loop stops only when the new entry fits (it can always
empty the list, and an entry of size at most the budget fits then). -/
theorem evictUntilFits_fits (budget need : Nat) (hneed : need ≤ budget)
    (l : List CacheEntry) :
    totalBytesL (evictUntilFits budget need l) + need ≤ budget := by
  induction l with
  | nil =>
    unfold evictUntilFits totalBytesL
    simpa using hneed
  | cons e rest ih =>
    unfold evictUntilFits
    split
    · next hc => exact hc
    · exact ih

/-- The eviction loop only removes a prefix: its result is a suffix of its
input. -/
theorem evictUntilFits_suffix (budget need : Nat) (l : List CacheEntry) :
    evictUntilFits budget need l <:+ l := by
  induction l with
  | nil => exact List.suffix_refl _
  | cons e rest ih =>
    unfold evictUntilFits
    split
    · exact List.suffix_refl _
    · exact ih.trans (List.suffix_cons e rest)

/-- `put` never changes the configured budget. -/
theorem put_budget (c : CacheStore) (k : PageKey) (a : List Nat)
    (kd : ArtifactKind) (now : Nat) :
    ((c.put k a kd now).2.2).budget = c.budget := by
  unfold CacheStore.put
  split <;> rfl

/-- A stored `put` (artifact not oversized) leaves `totalBytes` within the
budget. -/
theorem put_totalBytes_le (c : CacheStore) (k : PageKey) (a : List Nat)
    (kd : ArtifactKind) (now : Nat) (hfit : a.length ≤ c.budget) :
    ((c.put k a kd now).2.2).totalBytes ≤ c.budget := by
  unfold CacheStore.put
  rw [if_neg (by omega)]
  show totalBytesL (c.kept k a ++ [⟨k, a, a.length, now, now, kd⟩]) ≤ c.budget
  rw [totalBytesL_append]
  have h := evictUntilFits_fits c.budget a.length hfit
    (List.insertionSort lruLE (removeKey k c.entries))
  unfold CacheStore.kept
  have hone : totalBytesL [(⟨k, a, a.length, now, now, kd⟩ : CacheEntry)] = a.length := by
    unfold totalBytesL
    simp
  rw [hone]
  exact h

/-- Folding `put` operations preserves both the budget value and the
`totalBytes ≤ budget` invariant. -/
theorem foldPuts_inv (ops : List (PageKey × List Nat × ArtifactKind × Nat))
    (c : CacheStore) (hc : c.totalBytes ≤ c.budget) :
    (ops.foldl applyPut c).totalBytes ≤ (ops.foldl applyPut c).budget ∧
    (ops.foldl applyPut c).budget = c.budget := by
  induction ops generalizing c with
  | nil => exact ⟨hc, rfl⟩
  | cons op rest ih =>
    have hb : (applyPut c op).budget = c.budget := put_budget c op.1 op.2.1 op.2.2.1 op.2.2.2
    have hstep : (applyPut c op).totalBytes ≤ (applyPut c op).budget := by
      rw [hb]
      by_cases hfit : op.2.1.length ≤ c.budget
      · exact put_totalBytes_le c op.1 op.2.1 op.2.2.1 op.2.2.2 hfit
      · show ((c.put op.1 op.2.1 op.2.2.1 op.2.2.2).2.2).totalBytes ≤ c.budget
        unfold CacheStore.put
        rw [if_pos (by omega)]
        exact hc
    obtain ⟨h1, h2⟩ := ih (applyPut c op) hstep
    rw [List.foldl_cons]
    exact ⟨h1, h2.trans hb⟩

/-- The surviving old entries are an upward-closed set in the LRU order:
every evicted entry is LRU-below every survivor. -/
theorem kept_lru (c : CacheStore) (k : PageKey) (a : List Nat) :
    ∀ e ∈ List.insertionSort lruLE (removeKey k c.entries),
      e ∉ c.kept k a → ∀ f ∈ c.kept k a, lruLE e f := by
  intro e he hnot f hf
  have hsorted : List.Sorted lruLE (List.insertionSort lruLE (removeKey k c.entries)) :=
    List.sorted_insertionSort lruLE _
  have hsuf : c.kept k a <:+ List.insertionSort lruLE (removeKey k c.entries) :=
    evictUntilFits_suffix _ _ _
  obtain ⟨pre, hpre⟩ := hsuf
  rw [← hpre] at hsorted he
  have hp : List.Pairwise lruLE (pre ++ c.kept k a) := hsorted
  rcases List.mem_append.mp he with h1 | h1
  · exact (List.pairwise_append.mp hp).2.2 e h1 f hf
  · exact absurd h1 hnot

/-- C3: CacheStore budget safety and eviction policy — (1) after any
sequence of `put` operations from an empty store, `totalBytes` never
exceeds the configured budget; (2) a single non-oversized `put` into any
store lands within the budget, evicting until the new entry fits; (3) an
entry whose size exceeds the entire budget is rejected with
`CapacityExceeded`, is not stored (the store is unchanged), and the
artifact is still returned to the caller; (4) eviction removes
least-recently-used entries first, ties broken by oldest creation
timestamp: every evicted entry is LRU-below every surviving old entry. -/
theorem cacheStore_put_budget_lru (budget : Nat)
    (ops : List (PageKey × List Nat × ArtifactKind × Nat)) :
    (runPuts budget ops).totalBytes ≤ budget ∧
    (∀ (c : CacheStore) (k : PageKey) (a : List Nat) (kd : ArtifactKind) (now : Nat),
       a.length ≤ c.budget → ((c.put k a kd now).2.2).totalBytes ≤ c.budget) ∧
    (∀ (c : CacheStore) (k : PageKey) (a : List Nat) (kd : ArtifactKind) (now : Nat),
       c.budget < a.length → c.put k a kd now = (.capacityExceeded, a, c)) ∧
    (∀ (c : CacheStore) (k : PageKey) (a : List Nat),
       ∀ e ∈ List.insertionSort lruLE (removeKey k c.entries),
         e ∉ c.kept k a → ∀ f ∈ c.kept k a, lruLE e f) := by
  refine ⟨?_, put_totalBytes_le, ?_, kept_lru⟩
  · have h := foldPuts_inv ops (emptyStore budget) (by exact Nat.zero_le _)
    unfold runPuts
    rw [h.2] at h
    exact h.1
  · intro c k a kd now hover
    unfold CacheStore.put
    rw [if_pos hover]

/-- Witness for C3: a concrete run of two puts stays within a 10-byte
budget, and a 3-byte artifact offered to a 2-byte-budget store is rejected
with `CapacityExceeded`, returned, and not stored. -/
theorem cacheStore_put_budget_lru_witness :
    (runPuts 10 [(⟨0, 0, 0⟩, [1, 2, 3], ArtifactKind.image, 0),
                 (⟨0, 1, 0⟩, [4, 5, 6, 7, 8, 9, 10, 11], ArtifactKind.image, 1)]).totalBytes ≤ 10 ∧
    (emptyStore 2).put ⟨0, 0, 0⟩ [1, 2, 3] ArtifactKind.image 5
      = (PutOutcome.capacityExceeded, [1, 2, 3], emptyStore 2) := by
  refine ⟨(cacheStore_put_budget_lru 10 _).1, ?_⟩
  exact (cacheStore_put_budget_lru 2 []).2.2.1 (emptyStore 2) ⟨0, 0, 0⟩ [1, 2, 3]
    ArtifactKind.image 5 (by decide)

/-- The hit component of `get` is exactly the key lookup in the entry
list. -/
theorem get_fst (c : CacheStore) (k : PageKey) (now : Nat) :
    (c.get k now).1 = c.entries.find? (fun e => decide (e.key = k)) := by
  unfold CacheStore.get
  cases h : c.entries.find? (fun e => decide (e.key = k)) <;> simp [h]

/-- `get` never changes the configured budget. -/
theorem get_budget (c : CacheStore) (k : PageKey) (now : Nat) :
    ((c.get k now).2).budget = c.budget := by
  unfold CacheStore.get
  cases h : c.entries.find? (fun e => decide (e.key = k)) <;> rfl

/-- On a hit, `get` only refreshes the matching entries' last-access
timestamps. -/
theorem get_snd_entries_hit (c : CacheStore) (k : PageKey) (now : Nat)
    (e : CacheEntry) (h : c.entries.find? (fun x => decide (x.key = k)) = some e) :
    ((c.get k now).2).entries
      = c.entries.map (fun x => if x.key = k then { x with lastAccess := now } else x) := by
  unfold CacheStore.get
  rw [h]

/-- On a miss, `get` leaves the entry list unchanged. -/
theorem get_snd_entries_miss (c : CacheStore) (k : PageKey) (now : Nat)
    (h : c.entries.find? (fun x => decide (x.key = k)) = none) :
    ((c.get k now).2).entries = c.entries := by
  unfold CacheStore.get
  rw [h]

/-- Looking up key `k` in a list with no `k`-entry followed by one
`k`-entry finds that entry. -/
theorem find?_key_append (l : List CacheEntry) (x : CacheEntry) (k : PageKey)
    (hl : ∀ e ∈ l, e.key ≠ k) (hx : x.key = k) :
    (l ++ [x]).find? (fun e => decide (e.key = k)) = some x := by
  induction l with
  | nil =>
    rw [List.nil_append]
    rw [List.find?_cons_of_pos _ (by simpa using hx)]
  | cons e rest ih =>
    rw [List.cons_append]
    rw [List.find?_cons_of_neg _ (by simpa using hl e (by simp))]
    exact ih fun f hf => hl f (by simp [hf])

/-- No survivor of the eviction step carries the inserted key. -/
theorem kept_key_ne (c : CacheStore) (k : PageKey) (a : List Nat) :
    ∀ e ∈ c.kept k a, e.key ≠ k := by
  intro e he
  have h1 : e ∈ List.insertionSort lruLE (removeKey k c.entries) :=
    (evictUntilFits_suffix _ _ _).subset he
  have h2 : e ∈ removeKey k c.entries :=
    (List.perm_insertionSort lruLE _).mem_iff.mp h1
  have h3 := List.mem_filter.mp h2
  simpa using h3.2

/-- A stored `put` produces the survivors followed by the fresh entry. -/
theorem put_entries_stored (c : CacheStore) (k : PageKey) (a : List Nat)
    (kd : ArtifactKind) (now : Nat) (hfit : a.length ≤ c.budget) :
    ((c.put k a kd now).2.2).entries
      = c.kept k a ++ [⟨k, a, a.length, now, now, kd⟩] := by
  unfold CacheStore.put
  rw [if_neg (by omega)]

/-- Refreshing last-access timestamps commutes with the key lookup: the
found entry is the original one with its timestamp refreshed. -/
theorem find?_map_touch (l : List CacheEntry) (k : PageKey) (now : Nat)
    (e : CacheEntry) (h : l.find? (fun x => decide (x.key = k)) = some e) :
    (l.map fun x => if x.key = k then { x with lastAccess := now } else x).find?
        (fun x => decide (x.key = k)) = some { e with lastAccess := now } := by
  induction l with
  | nil => exact absurd h (by simp)
  | cons x rest ih =>
    by_cases hx : x.key = k
    · rw [List.find?_cons_of_pos _ (by simpa using hx)] at h
      rw [List.map_cons]
      rw [List.find?_cons_of_pos _ (by simp [hx])]
      cases h
      rw [if_pos hx]
    · rw [List.find?_cons_of_neg _ (by simpa using hx)] at h
      rw [List.map_cons]
      rw [List.find?_cons_of_neg _ (by simp [hx])]
      exact ih h

/-- On a cache hit, `renderPage` returns the cached artifact with
`pathUsed = cache`. -/
theorem renderPage_fst_hit (b : Backend) (k : PageKey) (s : GatewayState)
    (e : CacheEntry) (h : (s.cache.get k s.clock).1 = some e) :
    (renderPage b k s).1 = .ok ⟨e.artifact, .cache⟩ := by
  unfold renderPage
  rw [h]

/-- C1 (amended): after a successful `renderPage` whose artifact fits the
configured cache budget (so it was not rejected with `CapacityExceeded`),
an immediately following second `renderPage` for the same PageKey (with no
intervening invalidate or eviction) returns `pathUsed = cache` and artifact
bytes identical to those returned by the first call. -/
theorem renderPage_cache_correct (b : Backend) (k : PageKey) (s : GatewayState)
    (r : RenderResult) (s1 : GatewayState)
    (h1 : renderPage b k s = (.ok r, s1))
    (hfit : r.artifact.length ≤ s.cache.budget) :
    ∃ s2, renderPage b k s1 = (.ok ⟨r.artifact, .cache⟩, s2) := by
  unfold renderPage at h1
  split at h1
  · next e heq =>
    cases h1
    have hfind : s.cache.entries.find? (fun x => decide (x.key = k)) = some e := by
      rw [← get_fst s.cache k s.clock]
      exact heq
    have hfind2 : (((s.cache.get k s.clock).2).get k (s.clock + 1)).1
        = some { e with lastAccess := s.clock } := by
      rw [get_fst, get_snd_entries_hit s.cache k s.clock e hfind]
      exact find?_map_touch s.cache.entries k s.clock e hfind
    have hfst := renderPage_fst_hit b k
      { cache := (s.cache.get k s.clock).2,
        sampler := s.sampler.record ⟨0, 0, .hit, .cache, s.clock⟩,
        clock := s.clock + 1 }
      { e with lastAccess := s.clock } hfind2
    exact ⟨_, Prod.ext hfst rfl⟩
  · next heq =>
    split at h1
    · next ap hexec =>
      cases h1
      have hbud : ((s.cache.get k s.clock).2).budget = s.cache.budget :=
        get_budget s.cache k s.clock
      have hfind2 :
          (((((s.cache.get k s.clock).2).put k ap.1 .image s.clock).2.2).get k (s.clock + 1)).1
            = some ⟨k, ap.1, ap.1.length, s.clock, s.clock, .image⟩ := by
        rw [get_fst]
        rw [put_entries_stored _ k ap.1 .image s.clock (by rw [hbud]; exact hfit)]
        exact find?_key_append _ _ k (kept_key_ne _ k ap.1) rfl
      have hfst := renderPage_fst_hit b k
        { cache := (((s.cache.get k s.clock).2).put k ap.1 .image s.clock).2.2,
          sampler := s.sampler.record ⟨0, 0, .miss, ap.2, s.clock⟩,
          clock := s.clock + 1 }
        ⟨k, ap.1, ap.1.length, s.clock, s.clock, .image⟩ hfind2
      exact ⟨_, Prod.ext hfst rfl⟩
    · exact absurd h1 (by simp)

/-- Counterexample for C1: with a zero cache budget every artifact is
oversized, so the first `renderPage` succeeds (CapacityExceeded is
absorbed, the artifact is returned but not stored) and the immediately
following second call misses the cache and re-executes: its `pathUsed` is
`fast`, not `cache`, contradicting the claim as stated. -/
theorem renderPage_cache_correct_counterexample :
    (renderPage bCexC1 ⟨0, 0, 0⟩ sCexC1).1 = .ok ⟨[1], .fast⟩ ∧
    (renderPage bCexC1 ⟨0, 0, 0⟩ (renderPage bCexC1 ⟨0, 0, 0⟩ sCexC1).2).1
      = .ok ⟨[1], .fast⟩ ∧
    PathUsed.fast ≠ PathUsed.cache := by
  refine ⟨rfl, rfl, by decide⟩

/-- Witness for C1: with a 10-byte budget, the first call misses and
executes the fast path; the second call for the same key is served from
cache with the identical artifact `[5]`. -/
theorem renderPage_cache_correct_witness :
    (renderPage bW1 ⟨0, 0, 0⟩ (renderPage bW1 ⟨0, 0, 0⟩ sW1).2).1
      = .ok ⟨[5], PathUsed.cache⟩ := by
  obtain ⟨s2, h⟩ := renderPage_cache_correct bW1 ⟨0, 0, 0⟩ sW1 ⟨[5], .fast⟩
    (renderPage bW1 ⟨0, 0, 0⟩ sW1).2 rfl (by decide)
  rw [h]

/-- The deduplication invariant holds initially. -/
theorem dedupInv_init (execResult : Nat → List Nat) (n : Nat) :
    DedupInv execResult (dedupInit n) := by
  unfold DedupInv dedupInit
  refine ⟨by simp, by simp, fun _ => ⟨rfl, rfl, fun i => rfl⟩, ?_, ?_, ?_, ?_, ?_⟩
  · intro a h
    exact Option.noConfusion h
  · intro e rest h
    exact List.noConfusion h
  · intro i a h
    exact CallerPhase.noConfusion h
  · intro i h
    exact CallerPhase.noConfusion h
  · intro h
    exact Nat.noConfusion h

/-- Every protocol step preserves the deduplication invariant. -/
theorem dedupInv_step (execResult : Nat → List Nat) {n : Nat} (s : DedupState n)
    (hinv : DedupInv execResult s) (act : DedupAction n) :
    DedupInv execResult (dedupStep execResult s act) := by
  obtain ⟨h1, h2, h3, h4, h5, h6, h7, h8⟩ := hinv
  unfold DedupInv
  cases act with
  | arrive i =>
    cases hci : s.callers i with
    | idle =>
      cases hc : s.cache with
      | some a =>
        have hstep : dedupStep execResult s (.arrive i)
            = { s with callers := Function.update s.callers i (.done a) } := by
          simp only [dedupStep]
          rw [hci, hc]
        rw [hstep]
        refine ⟨h1, h2, ?_, h4, h5, ?_, ?_, h8⟩
        · intro h0
          rw [(h3 h0).1] at hc
          exact Option.noConfusion hc
        · intro j a2 hj
          have hj2 : Function.update s.callers i (CallerPhase.done a) j
              = CallerPhase.done a2 := hj
          rcases eq_or_ne j i with rfl | hne
          · rw [Function.update_same] at hj2
            cases hj2
            exact (h4 a hc).1
          · rw [Function.update_noteq hne] at hj2
            exact h6 j a2 hj2
        · intro j hj
          have hj2 : Function.update s.callers i (CallerPhase.done a) j
              = CallerPhase.attached := hj
          rcases eq_or_ne j i with rfl | hne
          · rw [Function.update_same] at hj2
            exact CallerPhase.noConfusion hj2
          · rw [Function.update_noteq hne] at hj2
            exact h7 j hj2
      | none =>
        by_cases hif : s.inflight.isEmpty = true
        · have hnil : s.inflight = [] := List.isEmpty_iff.mp hif
          have hstep : dedupStep execResult s (.arrive i)
              = { s with
                    inflight := [s.executions],
                    executions := s.executions + 1,
                    callers := Function.update s.callers i .attached } := by
            simp only [dedupStep]
            rw [hci, hc, if_pos hif]
          rw [hstep]
          have hexec0 : s.executions = 0 := by
            rcases Nat.lt_or_ge s.executions 1 with hlt | hge
            · omega
            · have he1 : s.executions = 1 := by omega
              rcases h8 he1 with hcase | hcase
              · rw [hc] at hcase
                exact Option.noConfusion hcase
              · rw [hnil] at hcase
                exact List.noConfusion hcase
          refine ⟨by simp, by show s.executions + 1 ≤ 1; omega, ?_, ?_, ?_, ?_, ?_, ?_⟩
          · intro h0
            exact absurd (show s.executions + 1 = 0 from h0) (by omega)
          · intro a2 hca
            have hca2 : s.cache = some a2 := hca
            rw [hc] at hca2
            exact Option.noConfusion hca2
          · intro e rest hin
            have hin2 : [s.executions] = e :: rest := hin
            cases hin2
            exact ⟨hexec0, rfl, hc, show s.executions + 1 = 1 by omega⟩
          · intro j a2 hj
            have hj2 : Function.update s.callers i CallerPhase.attached j
                = CallerPhase.done a2 := hj
            rcases eq_or_ne j i with rfl | hne
            · rw [Function.update_same] at hj2
              exact CallerPhase.noConfusion hj2
            · rw [Function.update_noteq hne] at hj2
              exact h6 j a2 hj2
          · intro j hj
            simp
          · intro _
            refine Or.inr ?_
            show [s.executions] = [0]
            rw [hexec0]
        · have hne2 : s.inflight ≠ [] := fun hx => hif (List.isEmpty_iff.mpr hx)
          have hstep : dedupStep execResult s (.arrive i)
              = { s with callers := Function.update s.callers i .attached } := by
            simp only [dedupStep]
            rw [hci, hc, if_neg hif]
          rw [hstep]
          refine ⟨h1, h2, ?_, h4, h5, ?_, ?_, h8⟩
          · intro h0
            exact absurd (h3 h0).2.1 hne2
          · intro j a2 hj
            have hj2 : Function.update s.callers i CallerPhase.attached j
                = CallerPhase.done a2 := hj
            rcases eq_or_ne j i with rfl | hne
            · rw [Function.update_same] at hj2
              exact CallerPhase.noConfusion hj2
            · rw [Function.update_noteq hne] at hj2
              exact h6 j a2 hj2
          · intro j hj
            exact hne2
    | attached =>
      have hstep : dedupStep execResult s (.arrive i) = s := by
        simp only [dedupStep]
        rw [hci]
      rw [hstep]
      exact ⟨h1, h2, h3, h4, h5, h6, h7, h8⟩
    | done a =>
      have hstep : dedupStep execResult s (.arrive i) = s := by
        simp only [dedupStep]
        rw [hci]
      rw [hstep]
      exact ⟨h1, h2, h3, h4, h5, h6, h7, h8⟩
  | complete =>
    cases hin : s.inflight with
    | nil =>
      have hstep : dedupStep execResult s .complete = s := by
        simp only [dedupStep]
        rw [hin]
      rw [hstep]
      exact ⟨h1, h2, h3, h4, h5, h6, h7, h8⟩
    | cons e rest =>
      obtain ⟨he0, hrest, hcache, hexec1⟩ := h5 e rest hin
      have hstep : dedupStep execResult s .complete
          = { s with
                cache := some (execResult e),
                inflight := rest,
                callers := fun j =>
                  match s.callers j with
                  | .attached => .done (execResult e)
                  | ph => ph } := by
        simp only [dedupStep]
        rw [hin]
      rw [hstep]
      refine ⟨?_, h2, ?_, ?_, ?_, ?_, ?_, ?_⟩
      · show rest.length ≤ 1
        rw [hrest]
        simp
      · intro h0
        exact absurd (show s.executions = 0 from h0) (by omega)
      · intro a2 hca
        have hca2 : some (execResult e) = some a2 := hca
        cases hca2
        rw [he0]
        exact ⟨rfl, hexec1⟩
      · intro e2 rest2 hin2
        have hin3 : rest = e2 :: rest2 := hin2
        rw [hrest] at hin3
        exact List.noConfusion hin3
      · intro j a2 hj
        have hj2 : (match s.callers j with
            | CallerPhase.attached => CallerPhase.done (execResult e)
            | ph => ph) = CallerPhase.done a2 := hj
        cases hcj : s.callers j with
        | idle =>
          rw [hcj] at hj2
          exact CallerPhase.noConfusion hj2
        | attached =>
          rw [hcj] at hj2
          cases hj2
          rw [he0]
        | done b =>
          rw [hcj] at hj2
          cases hj2
          exact h6 j _ hcj
      · intro j hj
        have hj2 : (match s.callers j with
            | CallerPhase.attached => CallerPhase.done (execResult e)
            | ph => ph) = CallerPhase.attached := hj
        cases hcj : s.callers j with
        | idle =>
          rw [hcj] at hj2
          exact CallerPhase.noConfusion hj2
        | attached =>
          rw [hcj] at hj2
          exact CallerPhase.noConfusion hj2
        | done b =>
          rw [hcj] at hj2
          exact CallerPhase.noConfusion hj2
      · intro _
        show some (execResult e) = some (execResult 0) ∨ rest = [0]
        rw [he0]
        exact Or.inl rfl

/-- The deduplication invariant holds at every reachable state. -/
theorem dedupInv_run (execResult : Nat → List Nat) {n : Nat}
    (acts : List (DedupAction n)) :
    DedupInv execResult (dedupRun execResult (dedupInit n) acts) := by
  suffices h : ∀ s, DedupInv execResult s →
      DedupInv execResult (dedupRun execResult s acts) from
    h _ (dedupInv_init execResult n)
  induction acts with
  | nil => exact fun s hs => hs
  | cons a rest ih =>
    intro s hs
    exact ih _ (dedupInv_step execResult s hs a)

/-- C2: deduplication — for any PageKey (modelled by one shared protocol
instance) and any trace of `n` concurrent `renderPage` callers starting
from an uncached key, at most one in-flight request exists at any time (in
every reachable state, over every trace); and once every caller has
finished, exactly one underlying native execution was issued and every
caller received the identical artifact, namely the result of that single
execution. -/
theorem renderPage_dedup (execResult : Nat → List Nat) (n : Nat)
    (acts : List (DedupAction n)) (hn : 0 < n)
    (hall : ∀ i : Fin n, ∃ a,
      (dedupRun execResult (dedupInit n) acts).callers i = .done a) :
    (dedupRun execResult (dedupInit n) acts).executions = 1 ∧
    (∀ i : Fin n,
      (dedupRun execResult (dedupInit n) acts).callers i = .done (execResult 0)) ∧
    (∀ acts2 : List (DedupAction n),
      (dedupRun execResult (dedupInit n) acts2).inflight.length ≤ 1) := by
  obtain ⟨h1, h2, h3, h4, h5, h6, h7, h8⟩ := dedupInv_run execResult acts
  have hexec : (dedupRun execResult (dedupInit n) acts).executions = 1 := by
    rcases Nat.eq_zero_or_pos (dedupRun execResult (dedupInit n) acts).executions
      with h0 | hpos
    · obtain ⟨a, ha⟩ := hall ⟨0, hn⟩
      rw [(h3 h0).2.2 ⟨0, hn⟩] at ha
      exact CallerPhase.noConfusion ha
    · omega
  refine ⟨hexec, ?_, ?_⟩
  · intro i
    obtain ⟨a, ha⟩ := hall i
    rw [h6 i a ha] at ha
    exact ha
  · intro acts2
    exact (dedupInv_run execResult acts2).1

/-- Witness for C2: two concrete callers arriving before the single
execution completes both finish with the identical artifact `[7]`, and
exactly one execution was issued. -/
theorem renderPage_dedup_witness :
    (dedupRun (fun _ => [7]) (dedupInit 2)
      [DedupAction.arrive 0, DedupAction.arrive 1, DedupAction.complete]).executions = 1 ∧
    (∀ i : Fin 2, (dedupRun (fun _ => [7]) (dedupInit 2)
      [DedupAction.arrive 0, DedupAction.arrive 1, DedupAction.complete]).callers i
        = .done [7]) := by
  have h := renderPage_dedup (fun _ => [7]) 2
    [DedupAction.arrive 0, DedupAction.arrive 1, DedupAction.complete]
    (by omega) (fun i => ⟨[7], by fin_cases i <;> rfl⟩)
  exact ⟨h.1, h.2.1⟩

end PDFJSI
